import Mathlib

/-!
Verification of the `crockford` formatting core (`src/format.rs`).

The Rust source defines three types: `Case` (Upper/Lower), `Encoder`
(a case policy), and `Formatter` (a bounded 13-byte sink that applies
the case transformation at write time and later renders its contents).
Bytes are modelled as `Nat` values below 256 (`u8`); the panicking
array index in `Formatter::write` is modelled by returning `Option`:
`none` is the panic. The external `encoding::encode_into` routine is
not part of `src/`; it is modelled from the spec (see its doc comment).
-/

namespace Crockford

/-- The `Case` enum from `src/format.rs`: two-valued case policy. -/
inductive Case where
  | Upper : Case
  | Lower : Case
deriving DecidableEq, Repr

/-- `Case::is_uppercase`: true iff the value is `Upper`. -/
def Case.is_uppercase : Case → Bool
  | Case.Upper => true
  | Case.Lower => false

/-- The `Encoder` struct: holds one field, the case policy. -/
structure Encoder where
  case : Case
deriving DecidableEq, Repr

/-- `Encoder::new`: an Encoder configured for lowercase output. -/
def Encoder.new : Encoder :=
  { case := Case.Lower }

/-- `Encoder::with_case`: an Encoder configured with the given case. -/
def Encoder.with_case (case : Case) : Encoder :=
  { case }

/-- `impl Default for Encoder`: `default` delegates to `new`. -/
def Encoder.default : Encoder :=
  Encoder.new

/-- The `Formatter` struct: a reference to its Encoder, a logical
length `len`, and a fixed `[u8; 13]` buffer, modelled as a list of
byte values whose length is 13 for every reachable Formatter. -/
structure Formatter where
  encoder : Encoder
  len : Nat
  data : List Nat
deriving DecidableEq, Repr

/-- `Formatter::new`: zero-initialized buffer and length, bound to the
borrowed Encoder. -/
def Formatter.new (encoder : Encoder) : Formatter :=
  { encoder, len := 0, data := List.replicate 13 0 }

/-- `u8::to_ascii_lowercase`: ASCII uppercase letters (65..=90) are
shifted to lowercase by adding 32; every other byte passes through. -/
def toAsciiLowercase (u : Nat) : Nat :=
  if 65 ≤ u ∧ u ≤ 90 then u + 32 else u

/-- The byte transformation applied by `Formatter::write` before
storage: lowercase conversion unless the bound case is `Upper`. -/
def writeTransform (case : Case) (u : Nat) : Nat :=
  if ! case.is_uppercase then toAsciiLowercase u else u

/-- `impl encoding::Write for Formatter`, method `write`: transform the
byte per the bound case, then store it at index `len` and increment
`len`. The Rust indexed store `self.data[self.len] = u` panics when
`len` is not below the buffer length; the panic is `none` here. -/
def Formatter.write (f : Formatter) (u : Nat) : Option Formatter :=
  let u := writeTransform f.encoder.case u
  if f.len < f.data.length then
    some { f with data := f.data.set f.len u, len := f.len + 1 }
  else
    none

/-- Sequencing of single-byte writes, as the external encoding routine
performs them: left fold of `Formatter.write`, propagating the panic. -/
def Formatter.writeAll (f : Formatter) (bs : List Nat) : Option Formatter :=
  bs.foldlM Formatter.write f

/-- `Formatter::render`: build a string by pushing `data[idx] as char`
for `idx` in `0..len`, in storage order. -/
def Formatter.render (f : Formatter) : String :=
  (List.range f.len).foldl (fun s idx => s.push (Char.ofNat (f.data.getD idx 0))) ""

/-- `Formatter::render_into`: forward `data[idx]` for `idx` in
`0..len` to an external sink via repeated single-byte writes. The sink
is any state type `σ` with a write operation `w`. -/
def Formatter.render_into {σ : Type} (f : Formatter) (w : σ → Nat → σ) (s : σ) : σ :=
  (List.range f.len).foldl (fun st idx => w st (f.data.getD idx 0)) s

/-- The sink that records the emitted bytes in emission order. -/
def listSink (l : List Nat) (b : Nat) : List Nat :=
  l ++ [b]

/-- Modelled from the spec: the symbol alphabet of the external
`encoding` module, which is absent from `src/`. Per spec sections 6
and 8, the external algorithm emits at most 13 symbol bytes per `u64`,
most-significant first, under a fixed base/alphabet; the reference
renderings `5111 ↦ "4zq"/"4ZQ"` pin the base to 32 with the Crockford
alphabet `0123456789ABCDEFGHJKMNPQRSTVWXYZ` emitted in uppercase
(the Formatter lowercases at write time when configured `Lower`). -/
def UPPERCASE_ENCODING : List Nat :=
  "0123456789ABCDEFGHJKMNPQRSTVWXYZ".data.map Char.toNat

/-- Modelled from the spec: the base-32 digit values of `n`,
most-significant digit first; the value `0` yields the single digit
`[0]` (spec: the sink's write is called one or more times). -/
def digits32 (n : Nat) : List Nat :=
  if n < 32 then
    [n]
  else
    digits32 (n / 32) ++ [n % 32]
decreasing_by
  exact Nat.div_lt_self (by omega) (by omega)

/-- Modelled from the spec: `encoding::encode_into(n, w)` — write the
symbol byte of each base-32 digit of `n` to the sink, most-significant
first. -/
def encode_into (n : Nat) (f : Formatter) : Option Formatter :=
  f.writeAll ((digits32 n).map (fun d => UPPERCASE_ENCODING.getD d 0))

/-- `Encoder::encode`: construct a fresh Formatter bound to `self`,
run the external encoding routine against it, return it. -/
def Encoder.encode (e : Encoder) (n : Nat) : Option Formatter :=
  encode_into n (Formatter.new e)

/-! ### Facts about the modelled digit decomposition -/

/-- Unfolding equation for `digits32`. -/
theorem digits32_def (n : Nat) :
    digits32 n = if n < 32 then [n] else digits32 (n / 32) ++ [n % 32] := by
  rw [digits32]

/-- Every base-32 digit is below 32. -/
theorem digits32_lt (n : Nat) : ∀ d ∈ digits32 n, d < 32 := by
  induction n using Nat.strong_induction_on with
  | _ n ih =>
    rw [digits32_def]
    split
    · next h =>
      intro d hd
      simp only [List.mem_singleton] at hd
      omega
    · next h =>
      intro d hd
      simp only [List.mem_append, List.mem_singleton] at hd
      rcases hd with hd | hd
      · exact ih (n / 32) (Nat.div_lt_self (by omega) (by omega)) d hd
      · subst hd
        exact Nat.mod_lt _ (by omega)

/-- A value below `32 ^ (k + 1)` has at most `k + 1` base-32 digits. -/
theorem digits32_length_le :
    ∀ (k n : Nat), n < 32 ^ (k + 1) → (digits32 n).length ≤ k + 1 := by
  intro k
  induction k with
  | zero =>
    intro n hn
    rw [digits32_def, if_pos (by simpa using hn)]
    simp
  | succ k ih =>
    intro n hn
    rw [digits32_def]
    split
    · simp
    · next h =>
      have hdiv : n / 32 < 32 ^ (k + 1) := by
        rw [Nat.div_lt_iff_lt_mul (by omega)]
        calc n < 32 ^ (k + 1 + 1) := hn
        _ = 32 ^ (k + 1) * 32 := by rw [Nat.pow_succ]
      have := ih (n / 32) hdiv
      simp only [List.length_append, List.length_singleton]
      omega

/-- A `u64` value has at most 13 base-32 digits. -/
theorem digits32_length_le_13 (n : Nat) (hn : n < 2 ^ 64) :
    (digits32 n).length ≤ 13 :=
  digits32_length_le 12 n (lt_of_lt_of_le hn (by norm_num))

/-! ### Facts about the write path -/

/-- Successful `write`: when `len` is below the buffer length the byte
is transformed and stored at index `len`, and `len` is incremented. -/
theorem write_some (f : Formatter) (u : Nat) (h : f.len < f.data.length) :
    f.write u = some
      { encoder := f.encoder, len := f.len + 1,
        data := f.data.set f.len (writeTransform f.encoder.case u) } := by
  simp [Formatter.write, h]

/-- Panicking `write`: when `len` has reached the buffer length the
indexed store is out of bounds. -/
theorem write_none (f : Formatter) (u : Nat) (h : ¬ f.len < f.data.length) :
    f.write u = none := by
  simp [Formatter.write, h]

/-- `take (n + 1)` of a list updated at position `n`. -/
theorem take_succ_set (l : List Nat) (n : Nat) (a : Nat) (h : n < l.length) :
    (l.set n a).take (n + 1) = l.take n ++ [a] := by
  rw [List.set_eq_take_cons_drop a h]
  have hlen : (l.take n).length = n := List.length_take_of_le (Nat.le_of_lt h)
  calc (l.take n ++ a :: l.drop (n + 1)).take (n + 1)
      = (l.take n ++ a :: l.drop (n + 1)).take ((l.take n).length + 1) := by rw [hlen]
    _ = l.take n ++ (a :: l.drop (n + 1)).take 1 := List.take_append 1
    _ = l.take n ++ [a] := by simp

/-- Master characterization of a run of writes: when the bytes fit in
the remaining buffer space, the fold of `write` succeeds, the length
grows by the byte count, and the buffer is the old content up to `len`,
then the transformed bytes, then the untouched tail. -/
theorem writeAll_spec (bs : List Nat) : ∀ (f : Formatter),
    f.len + bs.length ≤ f.data.length →
    f.writeAll bs = some
      { encoder := f.encoder, len := f.len + bs.length,
        data := f.data.take f.len ++ bs.map (writeTransform f.encoder.case)
          ++ f.data.drop (f.len + bs.length) } := by
  induction bs with
  | nil =>
    intro f h
    cases f with
    | mk e l d => simp [Formatter.writeAll]
  | cons b bs ih =>
    intro f h
    have hlt : f.len < f.data.length := by
      simp only [List.length_cons] at h
      omega
    have ihx := ih
      { encoder := f.encoder, len := f.len + 1,
        data := f.data.set f.len (writeTransform f.encoder.case b) }
      (by simp only [List.length_set, List.length_cons] at h ⊢; omega)
    simp only [Formatter.writeAll] at ihx ⊢
    rw [List.foldlM_cons, write_some f b hlt]
    simp only [Option.bind_eq_bind, Option.some_bind]
    rw [ihx]
    simp only [Option.some.injEq]
    have hdata : (f.data.set f.len (writeTransform f.encoder.case b)).take (f.len + 1)
        = f.data.take f.len ++ [writeTransform f.encoder.case b] :=
      take_succ_set _ _ _ hlt
    have hdrop : (f.data.set f.len (writeTransform f.encoder.case b)).drop
          (f.len + 1 + bs.length)
        = f.data.drop (f.len + 1 + bs.length) :=
      List.drop_set_of_lt _ _ (by omega)
    simp only [hdata, hdrop, List.map_cons, List.length_cons]
    congr 1
    · omega
    · rw [show f.len + (bs.length + 1) = f.len + 1 + bs.length from by omega]
      simp [List.append_assoc]

/-! ### Facts about the render paths -/

/-- Folding `String.push` appends the folded characters. -/
theorem foldl_push_data (l : List Char) :
    ∀ (s : String), l.foldl String.push s = ⟨s.data ++ l⟩ := by
  induction l with
  | nil =>
    intro s
    cases s with
    | mk cs => simp
  | cons c l ih =>
    intro s
    rw [List.foldl_cons, ih]
    simp

/-- Reading indices `0..n` of a list with a default is taking its
first `n` elements, provided `n` is within bounds. -/
theorem range_map_getD (l : List Nat) :
    ∀ (n : Nat), n ≤ l.length →
      (List.range n).map (fun i => l.getD i 0) = l.take n := by
  intro n
  induction n with
  | zero => simp
  | succ n ih =>
    intro h
    have hn : n < l.length := by omega
    rw [List.range_succ, List.map_append, ih (by omega), List.take_succ]
    simp [List.getD_eq_getElem l 0 hn, List.getElem?_eq_getElem hn]

/-- `render_into` is a left fold of the sink's write operation over
the first `len` buffered bytes. -/
theorem render_into_eq (f : Formatter) {σ : Type} (w : σ → Nat → σ) (s : σ)
    (h : f.len ≤ f.data.length) :
    f.render_into w s = (f.data.take f.len).foldl w s := by
  rw [Formatter.render_into, ← range_map_getD f.data f.len h, List.foldl_map]

/-- Folding the push of translated characters accumulates their list. -/
theorem render_aux (l : List Nat) :
    ∀ (ns : List Nat) (s : String),
      (ns.foldl (fun st idx => st.push (Char.ofNat (l.getD idx 0))) s).data
        = s.data ++ ns.map (fun idx => Char.ofNat (l.getD idx 0)) := by
  intro ns
  induction ns with
  | nil =>
    intro s
    simp
  | cons i ns ih =>
    intro s
    rw [List.foldl_cons, ih]
    simp

/-- The characters of `render` are the first `len` buffered bytes,
each reinterpreted as a character. -/
theorem render_data (f : Formatter) (h : f.len ≤ f.data.length) :
    (f.render).data = (f.data.take f.len).map Char.ofNat := by
  rw [Formatter.render, render_aux f.data (List.range f.len) ""]
  rw [show ("" : String).data = [] from rfl, List.nil_append]
  rw [show (List.range f.len).map (fun idx => Char.ofNat (f.data.getD idx 0))
      = ((List.range f.len).map (fun i => f.data.getD i 0)).map Char.ofNat from by
    rw [List.map_map]
    rfl]
  rw [range_map_getD f.data f.len h]

/-- Folding the list-collector sink appends the folded bytes. -/
theorem foldl_listSink (l : List Nat) :
    ∀ (acc : List Nat), l.foldl listSink acc = acc ++ l := by
  induction l with
  | nil => simp
  | cons b l ih =>
    intro acc
    rw [List.foldl_cons, ih]
    simp [listSink]

/-- Round trip through `Char` for byte values. -/
theorem toNat_ofNat_lt (b : Nat) (h : b < 55296) : (Char.ofNat b).toNat = b := by
  rw [Char.ofNat, dif_pos (Or.inl h)]
  rfl

/-! ### Facts about the modelled alphabet and the case transformation -/

/-- Every symbol byte the modelled external algorithm can emit is at
most 90 (a digit or an uppercase letter; 0 when out of range). -/
theorem alpha_le_90 (d : Nat) : UPPERCASE_ENCODING.getD d 0 ≤ 90 := by
  by_cases hd : d < UPPERCASE_ENCODING.length
  · rw [List.getD_eq_getElem _ _ hd]
    have hall : ∀ b ∈ UPPERCASE_ENCODING, b ≤ 90 := by decide
    exact hall _ (List.getElem_mem hd)
  · rw [List.getD_eq_default _ _ (by omega)]
    omega

/-- Lowercasing never produces an uppercase ASCII letter. -/
theorem toAsciiLowercase_not_upper (b : Nat) :
    ¬ (65 ≤ toAsciiLowercase b ∧ toAsciiLowercase b ≤ 90) := by
  rw [toAsciiLowercase]
  split <;> omega

/-- Lowercasing a byte that is at most 90 stays at most 122. -/
theorem toAsciiLowercase_le (b : Nat) (h : b ≤ 90) : toAsciiLowercase b ≤ 122 := by
  rw [toAsciiLowercase]
  split <;> omega

/-- A digit byte is untouched by the write-time transformation, under
either case. -/
theorem writeTransform_digit (c : Case) (u : Nat) (h48 : 48 ≤ u) (h57 : u ≤ 57) :
    writeTransform c u = u := by
  cases c
  · rfl
  · show toAsciiLowercase u = u
    rw [toAsciiLowercase, if_neg (by omega)]

/-- Characterization of `Encoder.encode` for `u64` values: encoding
succeeds and the Formatter holds the case-transformed symbol bytes of
the base-32 digits, followed by the untouched zeroed tail. -/
theorem encode_spec (e : Encoder) (n : Nat) (hn : n < 2 ^ 64) :
    e.encode n = some
      { encoder := e,
        len := ((digits32 n).map (fun d => UPPERCASE_ENCODING.getD d 0)).length,
        data := ((digits32 n).map (fun d => UPPERCASE_ENCODING.getD d 0)).map
            (writeTransform e.case)
          ++ (List.replicate 13 0).drop
            ((digits32 n).map (fun d => UPPERCASE_ENCODING.getD d 0)).length } := by
  have hlen : ((digits32 n).map (fun d => UPPERCASE_ENCODING.getD d 0)).length ≤ 13 := by
    rw [List.length_map]
    exact digits32_length_le_13 n hn
  have h0 : (Formatter.new e).len
      + ((digits32 n).map (fun d => UPPERCASE_ENCODING.getD d 0)).length
      ≤ (Formatter.new e).data.length := by
    simp only [Formatter.new, List.length_replicate]
    omega
  have hw := writeAll_spec ((digits32 n).map (fun d => UPPERCASE_ENCODING.getD d 0))
    (Formatter.new e) h0
  rw [show e.encode n
      = (Formatter.new e).writeAll ((digits32 n).map (fun d => UPPERCASE_ENCODING.getD d 0))
    from rfl, hw]
  simp [Formatter.new]

/-- The byte sequence a just-encoded Formatter renders: the
case-transformed symbol bytes, in digit order. -/
theorem encode_render_data (e : Encoder) (n : Nat) (hn : n < 2 ^ 64) :
    ∃ f, e.encode n = some f ∧
      (f.render).data = ((digits32 n).map (fun d => UPPERCASE_ENCODING.getD d 0)).map
        (fun b => Char.ofNat (writeTransform e.case b)) := by
  refine ⟨_, encode_spec e n hn, ?_⟩
  have hlen : ((digits32 n).map (fun d => UPPERCASE_ENCODING.getD d 0)).length ≤ 13 := by
    rw [List.length_map]
    exact digits32_length_le_13 n hn
  rw [render_data]
  · simp only
    rw [List.take_left' (by rw [List.length_map])]
    rw [List.map_map]
    rfl
  · simp only [List.length_append, List.length_map, List.length_drop, List.length_replicate]
    omega

/-! ### The claims -/

/-- C1: for every `u64` value `n`, the string produced by
`encode(n).render()` under a `Case::Lower` Encoder contains no
uppercase ASCII letters, and under a `Case::Upper` Encoder contains no
lowercase ASCII letters; ASCII digit bytes are stored unchanged by the
write path under either case. -/
theorem claim_C1_case_discipline (n : Nat) (hn : n < 2 ^ 64) :
    (∃ fL, (Encoder.with_case Case.Lower).encode n = some fL ∧
      ∀ c ∈ (fL.render).data, ¬ (65 ≤ c.toNat ∧ c.toNat ≤ 90)) ∧
    (∃ fU, (Encoder.with_case Case.Upper).encode n = some fU ∧
      ∀ c ∈ (fU.render).data, ¬ (97 ≤ c.toNat ∧ c.toNat ≤ 122)) ∧
    (∀ (c : Case) (u : Nat), 48 ≤ u → u ≤ 57 → writeTransform c u = u) := by
  refine ⟨?_, ?_, writeTransform_digit⟩
  · obtain ⟨fL, henc, hdata⟩ := encode_render_data (Encoder.with_case Case.Lower) n hn
    refine ⟨fL, henc, ?_⟩
    intro c hc
    rw [hdata] at hc
    obtain ⟨b, hb, rfl⟩ := List.mem_map.1 hc
    obtain ⟨d, _, rfl⟩ := List.mem_map.1 hb
    have h90 : UPPERCASE_ENCODING.getD d 0 ≤ 90 := alpha_le_90 d
    have hT : writeTransform (Encoder.with_case Case.Lower).case (UPPERCASE_ENCODING.getD d 0)
        = toAsciiLowercase (UPPERCASE_ENCODING.getD d 0) := rfl
    rw [hT, toNat_ofNat_lt _ (by have := toAsciiLowercase_le _ h90; omega)]
    exact toAsciiLowercase_not_upper _
  · obtain ⟨fU, henc, hdata⟩ := encode_render_data (Encoder.with_case Case.Upper) n hn
    refine ⟨fU, henc, ?_⟩
    intro c hc
    rw [hdata] at hc
    obtain ⟨b, hb, rfl⟩ := List.mem_map.1 hc
    obtain ⟨d, _, rfl⟩ := List.mem_map.1 hb
    have h90 : UPPERCASE_ENCODING.getD d 0 ≤ 90 := alpha_le_90 d
    have hT : writeTransform (Encoder.with_case Case.Upper).case (UPPERCASE_ENCODING.getD d 0)
        = UPPERCASE_ENCODING.getD d 0 := rfl
    rw [hT, toNat_ofNat_lt _ (by omega)]
    omega

/-- Witness for C1 at the concrete input 5111. -/
theorem claim_C1_witness :
    (∃ fL, (Encoder.with_case Case.Lower).encode 5111 = some fL ∧
      ∀ c ∈ (fL.render).data, ¬ (65 ≤ c.toNat ∧ c.toNat ≤ 90)) ∧
    (∃ fU, (Encoder.with_case Case.Upper).encode 5111 = some fU ∧
      ∀ c ∈ (fU.render).data, ¬ (97 ≤ c.toNat ∧ c.toNat ≤ 122)) ∧
    (∀ (c : Case) (u : Nat), 48 ≤ u → u ≤ 57 → writeTransform c u = u) :=
  claim_C1_case_discipline 5111 (by norm_num)

/-- C2: `write` below capacity succeeds, stores the byte and
increments `len`, preserving `len ≤ 13`; `write` at `len = 13` hits
the out-of-bounds index (modelled as `none`); and whenever the
external algorithm emits at most 13 bytes — in particular for every
`u64` encode call — the panic branch is unreachable and `len ≤ 13`
throughout. -/
theorem claim_C2_write_bounds :
    (∀ (f : Formatter) (u : Nat), f.data.length = 13 → f.len < 13 →
      ∃ f', f.write u = some f' ∧ f'.len = f.len + 1 ∧ f'.len ≤ 13) ∧
    (∀ (f : Formatter) (u : Nat), f.data.length = 13 → f.len = 13 →
      f.write u = none) ∧
    (∀ (e : Encoder) (bs : List Nat), bs.length ≤ 13 →
      ∃ g, (Formatter.new e).writeAll bs = some g ∧ g.len = bs.length ∧ g.len ≤ 13) ∧
    (∀ (e : Encoder) (n : Nat), n < 2 ^ 64 →
      ∃ g, e.encode n = some g ∧ g.len ≤ 13) := by
  refine ⟨?_, ?_, ?_, ?_⟩
  · intro f u h13 hlt
    exact ⟨_, write_some f u (by omega), rfl, show f.len + 1 ≤ 13 by omega⟩
  · intro f u h13 hl
    exact write_none f u (by omega)
  · intro e bs hbs
    have h0 : (Formatter.new e).len + bs.length ≤ (Formatter.new e).data.length := by
      simp only [Formatter.new, List.length_replicate]
      omega
    refine ⟨_, writeAll_spec bs (Formatter.new e) h0, by simp [Formatter.new], ?_⟩
    simp only [Formatter.new]
    omega
  · intro e n hn
    refine ⟨_, encode_spec e n hn, ?_⟩
    simp only [List.length_map]
    exact digits32_length_le_13 n hn

/-- Witness for C2 at a concrete Formatter and encode call. -/
theorem claim_C2_witness :
    ∃ f', (Formatter.new Encoder.new).write 65 = some f' ∧
      f'.len = (Formatter.new Encoder.new).len + 1 ∧ f'.len ≤ 13 :=
  claim_C2_write_bounds.1 (Formatter.new Encoder.new) 65 (by decide) (by decide)

/-- The bytes of a rendered string recover the buffered byte values,
for byte-valued buffer contents. -/
theorem render_bytes (f : Formatter) (hlen : f.len ≤ f.data.length)
    (hb : ∀ b ∈ f.data, b < 256) :
    (f.render).data.map Char.toNat = f.data.take f.len := by
  rw [render_data f hlen, List.map_map]
  have hid : ∀ b ∈ f.data.take f.len, (Char.toNat ∘ Char.ofNat) b = b := by
    intro b hbm
    have : b < 256 := hb b (List.take_subset _ _ hbm)
    exact toNat_ofNat_lt b (by omega)
  rw [List.map_congr_left hid, List.map_id']

/-- C3: for every Formatter within bounds, the bytes emitted by
`render_into` in emission order are exactly the bytes of the string
returned by `render`, and `render_into` on an arbitrary sink is the
fold of the sink's write over that same byte sequence; both operations
are pure, so repeated calls agree. -/
theorem claim_C3_render_paths_agree (f : Formatter) {σ : Type} (w : σ → Nat → σ) (s : σ)
    (hlen : f.len ≤ f.data.length) (hb : ∀ b ∈ f.data, b < 256) :
    f.render_into listSink [] = (f.render).data.map Char.toNat ∧
    f.render_into w s = ((f.render).data.map Char.toNat).foldl w s := by
  rw [render_bytes f hlen hb]
  constructor
  · rw [render_into_eq f listSink [] hlen, foldl_listSink]
    rfl
  · rw [render_into_eq f w s hlen]

/-- Witness for C3 on a freshly constructed Formatter. -/
theorem claim_C3_witness :
    (Formatter.new Encoder.new).render_into listSink []
      = ((Formatter.new Encoder.new).render).data.map Char.toNat ∧
    (Formatter.new Encoder.new).render_into listSink []
      = (((Formatter.new Encoder.new).render).data.map Char.toNat).foldl listSink [] :=
  claim_C3_render_paths_agree (Formatter.new Encoder.new) listSink [] (by decide) (by decide)

/-- The `i`-th rendered character is the `i`-th stored byte
reinterpreted as a character. -/
theorem render_char_at (f : Formatter) (i : Nat) (hlen : f.len ≤ f.data.length)
    (hi : i < f.len) :
    (f.render).data.getD i default = Char.ofNat (f.data.getD i 0) := by
  have hid : i < f.data.length := by omega
  have hmap : i < ((f.data.take f.len).map Char.ofNat).length := by
    rw [List.length_map, List.length_take]
    omega
  have hi' : i < (f.render).data.length := by
    rw [render_data f hlen]
    exact hmap
  rw [List.getD_eq_getElem _ _ hi', List.getD_eq_getElem _ _ hid]
  have h1 : (f.render).data[i] = ((f.data.take f.len).map Char.ofNat)[i] := by
    simp only [render_data f hlen]
  rw [h1]
  simp

/-- C4: `render` returns a string of exactly `len` bytes whose `i`-th
byte is the `i`-th stored buffer byte, in storage order. -/
theorem claim_C4_render_exact (f : Formatter) (hlen : f.len ≤ f.data.length)
    (hb : ∀ b ∈ f.data, b < 256) :
    (f.render).length = f.len ∧
    ∀ i, i < f.len → ((f.render).data.getD i default).toNat = f.data.getD i 0 := by
  constructor
  · rw [String.length, render_data f hlen, List.length_map, List.length_take]
    omega
  · intro i hi
    have hid : i < f.data.length := by omega
    rw [render_char_at f i hlen hi]
    have hlt : f.data.getD i 0 < 256 := by
      rw [List.getD_eq_getElem _ _ hid]
      exact hb _ (List.getElem_mem hid)
    exact toNat_ofNat_lt _ (by omega)

/-- Witness for C4 on a just-encoded Formatter. -/
theorem claim_C4_witness :
    ((Formatter.new Encoder.new).render).length = (Formatter.new Encoder.new).len ∧
    ∀ i, i < (Formatter.new Encoder.new).len →
      (((Formatter.new Encoder.new).render).data.getD i default).toNat
        = (Formatter.new Encoder.new).data.getD i 0 :=
  claim_C4_render_exact (Formatter.new Encoder.new) (by decide) (by decide)

/-- C5: under an `Upper`-configured Encoder, `write` stores the input
byte completely unchanged — no uppercase conversion is applied — so a
lowercase letter stays lowercase both in the buffer and in the
rendered output. -/
theorem claim_C5_upper_stores_raw (f : Formatter) (u : Nat)
    (hU : f.encoder.case = Case.Upper) (hlt : f.len < f.data.length) (hu : u < 256) :
    ∃ f', f.write u = some f' ∧
      f'.len = f.len + 1 ∧
      f'.data.getD f.len 0 = u ∧
      ((f'.render).data.getD f.len default).toNat = u := by
  have hT : writeTransform f.encoder.case u = u := by
    rw [hU]
    rfl
  have hstore : (f.data.set f.len (writeTransform f.encoder.case u)).getD f.len 0 = u := by
    have hset : f.len < (f.data.set f.len (writeTransform f.encoder.case u)).length := by
      rw [List.length_set]
      exact hlt
    rw [List.getD_eq_getElem _ _ hset, List.getElem_set_self, hT]
  refine ⟨{ encoder := f.encoder, len := f.len + 1,
            data := f.data.set f.len (writeTransform f.encoder.case u) },
    write_some f u hlt, rfl, hstore, ?_⟩
  have hlen' : f.len + 1 ≤ (f.data.set f.len (writeTransform f.encoder.case u)).length := by
    rw [List.length_set]
    omega
  rw [render_char_at
    { encoder := f.encoder, len := f.len + 1,
      data := f.data.set f.len (writeTransform f.encoder.case u) }
    f.len hlen' (Nat.lt_succ_self f.len)]
  show (Char.ofNat ((f.data.set f.len (writeTransform f.encoder.case u)).getD f.len 0)).toNat = u
  rw [hstore]
  exact toNat_ofNat_lt u (by omega)

/-- Witness for C5: a lowercase letter written through an Upper
Encoder stays lowercase. -/
theorem claim_C5_witness :
    ∃ f', (Formatter.new (Encoder.with_case Case.Upper)).write 97 = some f' ∧
      f'.len = (Formatter.new (Encoder.with_case Case.Upper)).len + 1 ∧
      f'.data.getD (Formatter.new (Encoder.with_case Case.Upper)).len 0 = 97 ∧
      ((f'.render).data.getD (Formatter.new (Encoder.with_case Case.Upper)).len default).toNat
        = 97 :=
  claim_C5_upper_stores_raw (Formatter.new (Encoder.with_case Case.Upper)) 97
    (by decide) (by decide) (by decide)

/-- C6: encoding 5111 renders `"4zq"` under a Lower Encoder and
`"4ZQ"` under an Upper Encoder, and `render_into` emits the same byte
sequences as the rendered strings. -/
theorem claim_C6_reference_vectors :
    ((Encoder.with_case Case.Lower).encode 5111).map Formatter.render = some "4zq" ∧
    ((Encoder.with_case Case.Upper).encode 5111).map Formatter.render = some "4ZQ" ∧
    ((Encoder.with_case Case.Lower).encode 5111).map
      (fun f => f.render_into listSink []) = some [52, 122, 113] ∧
    ((Encoder.with_case Case.Upper).encode 5111).map
      (fun f => f.render_into listSink []) = some [52, 90, 81] ∧
    "4zq".data.map Char.toNat = [52, 122, 113] ∧
    "4ZQ".data.map Char.toNat = [52, 90, 81] := by
  have h : digits32 5111 = [4, 31, 23] := by simp [digits32]
  refine ⟨?_, ?_, ?_, ?_, by decide, by decide⟩ <;>
    simp only [Encoder.encode, encode_into, h] <;> decide

/-- C7: `Encoder::new` is configured for lowercase, `default`
delegates to `new`, and a default-constructed Encoder produces exactly
the same encoding result and rendered output as an explicitly
`Case::Lower`-configured Encoder, for every input. -/
theorem claim_C7_default_is_lower :
    Encoder.new.case = Case.Lower ∧
    Encoder.default = Encoder.new ∧
    (∀ n : Nat, Encoder.default.encode n = (Encoder.with_case Case.Lower).encode n) ∧
    (∀ n : Nat, (Encoder.default.encode n).map Formatter.render
      = ((Encoder.with_case Case.Lower).encode n).map Formatter.render) :=
  ⟨rfl, rfl, fun _ => rfl, fun _ => rfl⟩

/-- C8: two independently constructed Encoders with the same case
configuration produce identical encoding results — same length, same
buffer, same rendered string — on every input. -/
theorem claim_C8_deterministic (e1 e2 : Encoder) (n : Nat) (hc : e1.case = e2.case) :
    e1.encode n = e2.encode n ∧
    (e1.encode n).map Formatter.len = (e2.encode n).map Formatter.len ∧
    (e1.encode n).map Formatter.data = (e2.encode n).map Formatter.data ∧
    (e1.encode n).map Formatter.render = (e2.encode n).map Formatter.render := by
  cases e1 with
  | mk c1 =>
    cases e2 with
    | mk c2 =>
      obtain rfl : c1 = c2 := hc
      exact ⟨rfl, rfl, rfl, rfl⟩

/-- Witness for C8 at two Upper-configured Encoders and input 5111. -/
theorem claim_C8_witness :
    (Encoder.with_case Case.Upper).encode 5111
      = (Encoder.with_case Case.Upper).encode 5111 ∧
    ((Encoder.with_case Case.Upper).encode 5111).map Formatter.len
      = ((Encoder.with_case Case.Upper).encode 5111).map Formatter.len ∧
    ((Encoder.with_case Case.Upper).encode 5111).map Formatter.data
      = ((Encoder.with_case Case.Upper).encode 5111).map Formatter.data ∧
    ((Encoder.with_case Case.Upper).encode 5111).map Formatter.render
      = ((Encoder.with_case Case.Upper).encode 5111).map Formatter.render :=
  claim_C8_deterministic (Encoder.with_case Case.Upper) (Encoder.with_case Case.Upper)
    5111 rfl

/-- C9: on a Formatter of length 0 — such as a fresh one — `render`
returns the empty string and `render_into` writes nothing to the sink;
neither fails. -/
theorem claim_C9_empty_render (f : Formatter) {σ : Type} (w : σ → Nat → σ) (s : σ)
    (h0 : f.len = 0) :
    f.render = "" ∧
    f.render_into w s = s ∧
    (∀ e : Encoder, (Formatter.new e).len = 0) := by
  refine ⟨?_, ?_, fun e => rfl⟩
  · rw [Formatter.render, h0]
    rfl
  · rw [Formatter.render_into, h0]
    rfl

/-- Witness for C9 on a freshly constructed Formatter. -/
theorem claim_C9_witness :
    (Formatter.new Encoder.new).render = "" ∧
    (Formatter.new Encoder.new).render_into listSink [] = [] ∧
    (∀ e : Encoder, (Formatter.new e).len = 0) :=
  claim_C9_empty_render (Formatter.new Encoder.new) listSink [] rfl

/-- C10: an in-bounds `write` touches only buffer index `len` — the
encoder and all earlier indices are unchanged, the transformed byte
lands at index `len`, and `len` grows by one — and consequently after
`k` writes into a fresh Formatter the buffer holds exactly the `k`
case-transformed bytes, in write order. -/
theorem claim_C10_write_frame :
    (∀ (f : Formatter) (u : Nat), f.len < f.data.length →
      ∃ f', f.write u = some f' ∧
        f'.encoder = f.encoder ∧
        f'.len = f.len + 1 ∧
        f'.data.length = f.data.length ∧
        (∀ i, i < f.data.length → i ≠ f.len → f'.data.getD i 0 = f.data.getD i 0) ∧
        f'.data.getD f.len 0 = writeTransform f.encoder.case u) ∧
    (∀ (e : Encoder) (bs : List Nat), bs.length ≤ 13 →
      ∃ g, (Formatter.new e).writeAll bs = some g ∧ g.len = bs.length ∧
        g.data.take bs.length = bs.map (writeTransform e.case)) := by
  constructor
  · intro f u hlt
    refine ⟨_, write_some f u hlt, rfl, rfl, List.length_set f.data _ _, ?_, ?_⟩
    · intro i hi hne
      show (f.data.set f.len (writeTransform f.encoder.case u)).getD i 0 = f.data.getD i 0
      have hset : i < (f.data.set f.len (writeTransform f.encoder.case u)).length := by
        rw [List.length_set]
        exact hi
      rw [List.getD_eq_getElem _ _ hset, List.getD_eq_getElem _ _ hi]
      exact List.getElem_set_ne hne.symm hset
    · show (f.data.set f.len (writeTransform f.encoder.case u)).getD f.len 0
        = writeTransform f.encoder.case u
      have hset : f.len < (f.data.set f.len (writeTransform f.encoder.case u)).length := by
        rw [List.length_set]
        exact hlt
      rw [List.getD_eq_getElem _ _ hset, List.getElem_set_self]
  · intro e bs hbs
    have h0 : (Formatter.new e).len + bs.length ≤ (Formatter.new e).data.length := by
      simp only [Formatter.new, List.length_replicate]
      omega
    refine ⟨_, writeAll_spec bs (Formatter.new e) h0, by simp [Formatter.new], ?_⟩
    show (((Formatter.new e).data.take (Formatter.new e).len
        ++ bs.map (writeTransform (Formatter.new e).encoder.case)
        ++ (Formatter.new e).data.drop ((Formatter.new e).len + bs.length)).take bs.length)
      = bs.map (writeTransform e.case)
    rw [show (Formatter.new e).data.take (Formatter.new e).len = [] from rfl,
      List.nil_append,
      show (Formatter.new e).encoder = e from rfl,
      List.take_left' (by rw [List.length_map])]

/-- Witness for C10 on a fresh Formatter and the byte 66. -/
theorem claim_C10_witness :
    ∃ f', (Formatter.new Encoder.new).write 66 = some f' ∧
      f'.encoder = (Formatter.new Encoder.new).encoder ∧
      f'.len = (Formatter.new Encoder.new).len + 1 ∧
      f'.data.length = (Formatter.new Encoder.new).data.length ∧
      (∀ i, i < (Formatter.new Encoder.new).data.length →
        i ≠ (Formatter.new Encoder.new).len →
        f'.data.getD i 0 = (Formatter.new Encoder.new).data.getD i 0) ∧
      f'.data.getD (Formatter.new Encoder.new).len 0
        = writeTransform (Formatter.new Encoder.new).encoder.case 66 :=
  claim_C10_write_frame.1 (Formatter.new Encoder.new) 66 (by decide)

end Crockford
